import Mathlib

/-!
# Verification of the kaiserlift core algorithms

Shallow embedding of the core functions of `src/kaiserlift/main.py`:
the Metric Converter (`calculate_1rm`, `estimate_weight_from_1rm`), the
Dominance Filter (`highest_weight_per_rep`) and the Target Synthesizer
(`dougs_next_pareto`).

Modelling conventions:
* Python floats are modelled as `ℚ`.  A float-valued result that can be
  the IEEE value `NaN` is modelled as `Option ℚ`, `none` standing for
  `NaN`.  Note that `np.nan` is an ordinary return *value* in the
  source, not an exception: the embedded functions are total.
* The `None` and `math.isnan` argument guards of the source collapse in
  this model, because `ℚ` has no `None`/`NaN` inhabitants.
* A pandas DataFrame row is a `Row`: the pandas integer index label,
  the `Exercise` string, the `Weight` and `Reps` columns after
  `pd.to_numeric(..., errors="coerce")` (so `none` = NaN = missing or
  non-numeric), and the remaining columns as an opaque association
  list `extra` that the algorithms never inspect.
-/

namespace Kaiserlift

/-- Embedding of `calculate_1rm` (src/kaiserlift/main.py, lines 154-172).
`none` is the `np.nan` the source returns for invalid input. -/
def calculate_1rm (weight : ℚ) (reps : ℚ) : Option ℚ :=
  if reps ≤ 0 ∨ weight ≤ 0 then
    if weight = 0 ∧ 0 < reps then some 0 else none
  else if reps = 1 then some weight
  else some (weight * (1 + reps / 30))

/-- Embedding of `estimate_weight_from_1rm` (src/kaiserlift/main.py,
lines 177-191).  `none` is the `np.nan` the source returns for
invalid input. -/
def estimate_weight_from_1rm (one_rm : ℚ) (reps : ℚ) : Option ℚ :=
  if reps ≤ 0 ∨ one_rm < 0 then
    if one_rm = 0 ∧ 0 < reps then some 0 else none
  else if reps = 1 then some one_rm
  else some (one_rm / (1 + reps / 30))

/-- On the valid domain (`weight > 0`, `reps > 0`) `calculate_1rm`
returns the Epley value (the raw weight at one rep). -/
lemma calculate_1rm_of_pos (w r : ℚ) (hw : 0 < w) (hr : 0 < r) :
    calculate_1rm w r = if r = 1 then some w else some (w * (1 + r / 30)) := by
  unfold calculate_1rm
  rw [if_neg (by push_neg; exact ⟨hr, hw⟩)]

/-- On the valid domain (`one_rm ≥ 0`, `reps > 0`) `estimate_weight_from_1rm`
returns the inverted Epley value. -/
lemma estimate_weight_from_1rm_of_nonneg (c r : ℚ) (hc : 0 ≤ c) (hr : 0 < r) :
    estimate_weight_from_1rm c r = if r = 1 then some c else some (c / (1 + r / 30)) := by
  unfold estimate_weight_from_1rm
  rw [if_neg (by push_neg; exact ⟨hr, hc⟩)]

/-- C3 -- Round-trip law of the Metric Converter: for `performance > 0`
and `effort > 0`, `estimate_weight_from_1rm (calculate_1rm w r) r = w`,
and for `capacity > 0`, `calculate_1rm (estimate_weight_from_1rm c r) r = c`.
Over `ℚ` the round trip is exact (the claim asks only for equality up
to floating-point tolerance). -/
theorem c3_roundtrip (w c r : ℚ) (hw : 0 < w) (hc : 0 < c) (hr : 0 < r) :
    (calculate_1rm w r).bind (fun x => estimate_weight_from_1rm x r) = some w ∧
    (estimate_weight_from_1rm c r).bind (fun x => calculate_1rm x r) = some c := by
  have hden : (0:ℚ) < 1 + r / 30 := by positivity
  have hden0 : (1 + r / 30 : ℚ) ≠ 0 := ne_of_gt hden
  by_cases h1 : r = 1
  · subst h1
    rw [calculate_1rm_of_pos w 1 hw hr, if_pos rfl,
        estimate_weight_from_1rm_of_nonneg c 1 (le_of_lt hc) hr, if_pos rfl]
    constructor
    · rw [Option.some_bind, estimate_weight_from_1rm_of_nonneg w 1 (le_of_lt hw) hr, if_pos rfl]
    · rw [Option.some_bind, calculate_1rm_of_pos c 1 hc hr, if_pos rfl]
  · have hwr : 0 < w * (1 + r / 30) := by positivity
    have hcr : 0 < c / (1 + r / 30) := by positivity
    constructor
    · rw [calculate_1rm_of_pos w r hw hr, if_neg h1, Option.some_bind,
          estimate_weight_from_1rm_of_nonneg _ r (le_of_lt hwr) hr, if_neg h1]
      congr 1
      field_simp
    · rw [estimate_weight_from_1rm_of_nonneg c r (le_of_lt hc) hr, if_neg h1, Option.some_bind,
          calculate_1rm_of_pos _ r hcr hr, if_neg h1]
      congr 1
      field_simp

/-- Witness for C3: the round trip at `performance = 2`, `capacity = 3`,
`effort = 4`. -/
theorem c3_roundtrip_witness :
    (calculate_1rm 2 4).bind (fun x => estimate_weight_from_1rm x 4) = some 2 ∧
    (estimate_weight_from_1rm 3 4).bind (fun x => calculate_1rm x 4) = some 3 :=
  c3_roundtrip 2 3 4 (by norm_num) (by norm_num) (by norm_num)

/-- C6 counterexample -- the claim says `calculate_1rm` with
`effort <= 0` "fails by raising an InvalidInput error immediately (it
does not silently return a value)".  The source has no raise path: at
`weight = 100`, `reps = 0` it returns the float value `np.nan`
(modelled `none`), i.e. it does silently return a value. -/
theorem c6_counterexample : calculate_1rm 100 0 = none := by decide

/-- C6 amended -- `calculate_1rm` with `effort <= 0` returns the NaN
sentinel value `np.nan` (modelled `none`) rather than raising, while
`performance = 0` with `effort > 0` returns capacity `0` and is not an
error. -/
theorem c6_amended (w r s : ℚ) (hr : r ≤ 0) (hs : 0 < s) :
    calculate_1rm w r = none ∧ calculate_1rm 0 s = some 0 := by
  constructor
  · unfold calculate_1rm
    rw [if_pos (Or.inl hr), if_neg]
    rintro ⟨-, h0⟩
    exact absurd hr (not_le.mpr h0)
  · unfold calculate_1rm
    rw [if_pos (Or.inr (le_refl 0)), if_pos ⟨rfl, hs⟩]

/-- Witness for C6 amended, at `reps = 0` and `reps = 2`. -/
theorem c6_amended_witness : calculate_1rm 5 0 = none ∧ calculate_1rm 0 2 = some 0 :=
  c6_amended 5 0 2 (le_refl 0) (by norm_num)

/-- C7 counterexample -- the claim says `calculate_1rm (performance, 1)
= performance` for every performance value, but at `performance = -1`
the source returns `np.nan` (modelled `none`), not `-1`. -/
theorem c7_counterexample : ¬ (calculate_1rm (-1) 1 = some (-1)) := by decide

/-- C7 amended -- for every `performance ≥ 0`,
`calculate_1rm performance 1 = performance` (reference-unit identity),
and for `effort > 1` the Epley formula
`capacity = performance * (1 + effort / 30)` holds; in particular
`calculate_1rm 100 1 = 100` and `calculate_1rm 1 15 = 3/2`. -/
theorem c7_amended (w r : ℚ) (hw : 0 ≤ w) :
    calculate_1rm w 1 = some w ∧
    (1 < r → calculate_1rm w r = some (w * (1 + r / 30))) ∧
    calculate_1rm 100 1 = some 100 ∧ calculate_1rm 1 15 = some (3/2) := by
  rcases eq_or_lt_of_le hw with h0 | hpos
  · subst h0
    refine ⟨?_, fun hr => ?_, by norm_num [calculate_1rm], by norm_num [calculate_1rm]⟩
    · unfold calculate_1rm
      rw [if_pos (Or.inr (le_refl 0)), if_pos ⟨rfl, one_pos⟩]
    · unfold calculate_1rm
      rw [if_pos (Or.inr (le_refl 0)), if_pos ⟨rfl, lt_trans one_pos hr⟩, zero_mul]
  · refine ⟨?_, fun hr => ?_, by norm_num [calculate_1rm], by norm_num [calculate_1rm]⟩
    · rw [calculate_1rm_of_pos w 1 hpos one_pos, if_pos rfl]
    · rw [calculate_1rm_of_pos w r hpos (lt_trans one_pos hr), if_neg (ne_of_gt hr)]

/-- Witness for C7 amended, at `performance = 7`, `effort = 3`. -/
theorem c7_amended_witness :
    calculate_1rm 7 1 = some 7 ∧ calculate_1rm 7 3 = some (7 * (1 + 3 / 30)) :=
  ⟨(c7_amended 7 3 (by norm_num)).1,
   (c7_amended 7 3 (by norm_num)).2.1 (by norm_num)⟩

/-! ## The Dominance Filter (`highest_weight_per_rep`)

A DataFrame row after `pd.to_numeric(..., errors="coerce")` on the
`Weight` and `Reps` columns.  `idx` is the pandas index label, `extra`
the passthrough columns the algorithm never inspects. -/

structure Row where
  idx : ℕ
  ex : String
  weight : Option ℚ
  reps : Option ℚ
  extra : List (String × String)
  deriving DecidableEq, Repr

/-- A row that survived `dropna(subset=["Exercise", "Weight", "Reps"])`
followed by `astype(int)` on `Reps`. -/
structure ProcRow where
  idx : ℕ
  ex : String
  weight : ℚ
  reps : ℤ
  extra : List (String × String)
  deriving DecidableEq, Repr

/-- Python `int(q)` on a float: truncation toward zero. -/
def ratTrunc (q : ℚ) : ℤ := if 0 ≤ q then ⌊q⌋ else ⌈q⌉

/-- One row of the `dropna` + `astype(int)` preprocessing of
`highest_weight_per_rep` (src/kaiserlift/main.py, lines 57-67):
a row is kept iff both coerced columns are non-NaN. -/
def toProc (row : Row) : Option ProcRow :=
  match row.weight, row.reps with
  | some w, some r => some ⟨row.idx, row.ex, w, ratTrunc r, row.extra⟩
  | _, _ => none

/-- The preprocessed DataFrame `df_copy`, in row order. -/
def procRows (rows : List Row) : List ProcRow :=
  rows.filterMap toProc

/-- The `(Exercise, Reps)` groupby key of a row. -/
def rkey (r : ProcRow) : String × ℤ := (r.ex, r.reps)

/-- The lexicographic `(Exercise, Reps)` order pandas uses to sort
groupby keys. -/
def keyLe (a b : String × ℤ) : Prop :=
  a.1 < b.1 ∨ (a.1 = b.1 ∧ a.2 ≤ b.2)

instance : DecidableRel keyLe := fun a b => by
  unfold keyLe
  exact inferInstance

instance : IsTrans (String × ℤ) keyLe :=
  ⟨by
    rintro a b c (h1 | ⟨e1, le1⟩) (h2 | ⟨e2, le2⟩)
    · exact Or.inl (lt_trans h1 h2)
    · exact Or.inl (e2 ▸ h1)
    · exact Or.inl (by rw [e1]; exact h2)
    · exact Or.inr ⟨e1.trans e2, le_trans le1 le2⟩⟩

instance : IsTotal (String × ℤ) keyLe :=
  ⟨by
    intro a b
    rcases lt_trichotomy a.1 b.1 with h | h | h
    · exact Or.inl (Or.inl h)
    · rcases le_total a.2 b.2 with h2 | h2
      · exact Or.inl (Or.inr ⟨h, h2⟩)
      · exact Or.inr (Or.inr ⟨h.symm, h2⟩)
    · exact Or.inr (Or.inl h)⟩

/-- The rows of `df_copy` carrying a given groupby key, in row order. -/
def keyGroup (k : String × ℤ) (l : List ProcRow) : List ProcRow :=
  l.filter (fun r => decide (rkey r = k))

/-- `idxmax` on the `Weight` column of one group: the first row of the
group attaining the maximum weight (pandas `idxmax` keeps the first
occurrence on ties). -/
def bestIn : List ProcRow → Option ProcRow
  | [] => none
  | r :: rs =>
    match bestIn rs with
    | none => some r
    | some b => if r.weight < b.weight then some b else some r

/-- The sorted distinct groupby keys, as produced by
`df_copy.groupby(["Exercise", "Reps"])`. -/
def sortedKeys (l : List ProcRow) : List (String × ℤ) :=
  List.insertionSort keyLe (l.map rkey).dedup

/-- `max_weight_sets = df_copy.loc[idx]`
(src/kaiserlift/main.py, lines 80-81): per sorted groupby key, the
first row attaining the maximum weight. -/
def maxWeightSets (l : List ProcRow) : List ProcRow :=
  (sortedKeys l).filterMap (fun k => bestIn (keyGroup k l))

/-- Embedding of the inner `is_superseded(row, group_df)`
(src/kaiserlift/main.py, lines 88-96): true iff the same-exercise group
holds a row with strictly more reps and at-least-equal weight. -/
def is_superseded (row : ProcRow) (g : List ProcRow) : Bool :=
  !(g.filter (fun s => decide (row.reps < s.reps) && decide (row.weight ≤ s.weight))).isEmpty

/-- Embedding of `highest_weight_per_rep` (src/kaiserlift/main.py,
lines 50-110).  The Python early return for an empty `df_copy` yields
the empty row list, which is also what the general path produces, so it
needs no separate branch in a row-level model. -/
def highest_weight_per_rep (rows : List Row) : List ProcRow :=
  let m := maxWeightSets (procRows rows)
  m.filter (fun r => !is_superseded r (m.filter (fun s => decide (s.ex = r.ex))))

/-- Re-reading the output DataFrame as input: all columns present,
`Weight`/`Reps` numeric. -/
def embedRow (r : ProcRow) : Row :=
  ⟨r.idx, r.ex, some r.weight, some (r.reps : ℚ), r.extra⟩

/-- `r` is the first row of `g` attaining the maximum weight: every row
of `g` weighs at most `r.weight` and every row before `r` weighs
strictly less.  This renders the claim's words "the single
maximum-Weight record, ties broken by first occurrence in input
order". -/
def IsFirstMax (r : ProcRow) (g : List ProcRow) : Prop :=
  ∃ pre post, g = pre ++ r :: post ∧
    (∀ x ∈ pre, x.weight < r.weight) ∧ ∀ x ∈ g, x.weight ≤ r.weight

lemma bestIn_eq_none {l : List ProcRow} : bestIn l = none ↔ l = [] := by
  cases l with
  | nil => simp [bestIn]
  | cons r rs =>
    simp only [bestIn]
    cases h : bestIn rs with
    | none => simp
    | some b =>
      constructor
      · intro hif
        dsimp only at hif
        split_ifs at hif
      · intro h
        cases h

lemma bestIn_mem : ∀ {l : List ProcRow} {r : ProcRow}, bestIn l = some r → r ∈ l := by
  intro l
  induction l with
  | nil => intro r h; simp [bestIn] at h
  | cons a l ih =>
    intro r h
    unfold bestIn at h
    cases hb : bestIn l with
    | none =>
      rw [hb] at h
      cases h
      exact List.mem_cons_self a l
    | some b =>
      rw [hb] at h
      dsimp only at h
      split_ifs at h
      · cases h
        exact List.mem_cons_of_mem a (ih hb)
      · cases h
        exact List.mem_cons_self a l

lemma isFirstMax_of_bestIn : ∀ {g : List ProcRow} {r : ProcRow},
    bestIn g = some r → IsFirstMax r g := by
  intro g
  induction g with
  | nil => intro r h; simp [bestIn] at h
  | cons a l ih =>
    intro r h
    unfold bestIn at h
    cases hb : bestIn l with
    | none =>
      rw [hb] at h
      cases h
      rw [bestIn_eq_none.mp hb]
      refine ⟨[], [], rfl, by simp, ?_⟩
      intro x hx
      rw [List.mem_singleton.mp hx]
    | some b =>
      rw [hb] at h
      dsimp only at h
      obtain ⟨pre, post, hg, hpre, hmax⟩ := ih hb
      split_ifs at h with hw
      · cases h
        refine ⟨a :: pre, post, by rw [hg, List.cons_append], ?_, ?_⟩
        · intro x hx
          rcases List.mem_cons.mp hx with rfl | hx
          · exact hw
          · exact hpre x hx
        · intro x hx
          rcases List.mem_cons.mp hx with rfl | hx
          · exact le_of_lt hw
          · exact hmax x hx
      · cases h
        refine ⟨[], l, rfl, by simp, ?_⟩
        intro x hx
        rcases List.mem_cons.mp hx with rfl | hx
        · exact le_refl _
        · exact le_trans (hmax x hx) (not_lt.mp hw)

lemma bestIn_of_isFirstMax : ∀ {g : List ProcRow} {r : ProcRow},
    IsFirstMax r g → bestIn g = some r := by
  intro g
  induction g with
  | nil =>
    rintro r ⟨pre, post, hg, -, -⟩
    exact absurd hg (by simp)
  | cons a l ih =>
    rintro r ⟨pre, post, hg, hpre, hmax⟩
    cases pre with
    | nil =>
      simp only [List.nil_append] at hg
      obtain ⟨rfl, rfl⟩ := List.cons.inj hg
      unfold bestIn
      cases hb : bestIn l with
      | none => rfl
      | some b =>
        have hble : b.weight ≤ a.weight :=
          hmax b (List.mem_cons_of_mem a (bestIn_mem hb))
        dsimp only
        rw [if_neg (not_lt.mpr hble)]
    | cons p pre2 =>
      simp only [List.cons_append] at hg
      obtain ⟨rfl, hl⟩ := List.cons.inj hg
      have hfm : IsFirstMax r l := by
        refine ⟨pre2, post, hl, ?_, ?_⟩
        · intro x hx
          exact hpre x (List.mem_cons_of_mem _ hx)
        · intro x hx
          exact hmax x (List.mem_cons_of_mem _ hx)
      unfold bestIn
      rw [ih hfm]
      dsimp only
      rw [if_pos (hpre a (List.mem_cons_self _ _))]

lemma bestIn_iff_isFirstMax {g : List ProcRow} {r : ProcRow} :
    bestIn g = some r ↔ IsFirstMax r g :=
  ⟨isFirstMax_of_bestIn, bestIn_of_isFirstMax⟩

lemma mem_keyGroup {k : String × ℤ} {l : List ProcRow} {r : ProcRow} :
    r ∈ keyGroup k l ↔ r ∈ l ∧ rkey r = k := by
  simp [keyGroup, List.mem_filter]

lemma mem_sortedKeys {l : List ProcRow} {k : String × ℤ} :
    k ∈ sortedKeys l ↔ k ∈ l.map rkey := by
  unfold sortedKeys
  rw [List.mem_insertionSort, List.mem_dedup]

lemma mem_maxWeightSets {l : List ProcRow} {r : ProcRow} :
    r ∈ maxWeightSets l ↔ IsFirstMax r (keyGroup (rkey r) l) := by
  unfold maxWeightSets
  rw [List.mem_filterMap]
  constructor
  · rintro ⟨k, hk, hbest⟩
    have hr : rkey r = k := (mem_keyGroup.mp (bestIn_mem hbest)).2
    subst hr
    exact isFirstMax_of_bestIn hbest
  · intro h
    refine ⟨rkey r, ?_, bestIn_of_isFirstMax h⟩
    obtain ⟨pre, post, hg, -, -⟩ := h
    have hr : r ∈ keyGroup (rkey r) l := by
      rw [hg]
      exact List.mem_append_right pre (List.mem_cons_self _ _)
    rw [mem_sortedKeys]
    exact List.mem_map_of_mem rkey (mem_keyGroup.mp hr).1

lemma not_is_superseded_iff {r : ProcRow} {g : List ProcRow} :
    (!is_superseded r g) = true ↔ ∀ s ∈ g, ¬(r.reps < s.reps ∧ r.weight ≤ s.weight) := by
  simp only [is_superseded, Bool.not_not, List.isEmpty_iff]
  constructor
  · intro h s hs hcond
    have : s ∈ g.filter (fun s => decide (r.reps < s.reps) && decide (r.weight ≤ s.weight)) := by
      rw [List.mem_filter]
      exact ⟨hs, by simp [hcond.1, hcond.2]⟩
    rw [h] at this
    cases this
  · intro h
    rw [List.filter_eq_nil_iff]
    intro s hs
    simp only [Bool.and_eq_true, decide_eq_true_eq, not_and]
    intro h1 h2
    exact h s hs ⟨h1, h2⟩

/-- Membership in the Dominance Filter output: a row survives iff it is
a per-key first maximum and no same-exercise per-key first maximum has
strictly more reps and at-least-equal weight. -/
lemma mem_hwpr {rows : List Row} {r : ProcRow} :
    r ∈ highest_weight_per_rep rows ↔
      r ∈ maxWeightSets (procRows rows) ∧
        ∀ s ∈ maxWeightSets (procRows rows), s.ex = r.ex →
          ¬(r.reps < s.reps ∧ r.weight ≤ s.weight) := by
  unfold highest_weight_per_rep
  rw [List.mem_filter]
  constructor
  · rintro ⟨hm, hfilt⟩
    refine ⟨hm, ?_⟩
    intro s hs hex
    have := not_is_superseded_iff.mp hfilt s ?_
    · exact this
    · rw [List.mem_filter]
      exact ⟨hs, by simp [hex]⟩
  · rintro ⟨hm, h⟩
    refine ⟨hm, not_is_superseded_iff.mpr ?_⟩
    intro s hs
    rw [List.mem_filter] at hs
    exact h s hs.1 (by simpa using hs.2)

/-! ## Claims about the Dominance Filter -/

/-- The claim's step 1, in its own words: within the `(Exercise, Reps)`
group, `r` is the single maximum-Weight record, ties broken by first
occurrence in input order. -/
def SpecKept (r : ProcRow) (rows : List Row) : Prop :=
  IsFirstMax r (keyGroup (rkey r) (procRows rows))

/-- The claim's description of the Dominance Filter output: per-key
first maxima from which every record superseded by a same-exercise
record with strictly more reps and at-least-equal weight is removed. -/
def SpecFrontier (r : ProcRow) (rows : List Row) : Prop :=
  SpecKept r rows ∧
    ¬ ∃ s : ProcRow, SpecKept s rows ∧ s.ex = r.ex ∧ r.reps < s.reps ∧ r.weight ≤ s.weight

/-- C1 -- `highest_weight_per_rep` returns exactly the records obtained
by keeping, per `(Exercise, Reps)` pair, the single maximum-Weight
record (ties broken by first occurrence in input order) and then
removing every record dominated by a same-exercise record with strictly
more reps and at-least-equal weight; in particular, for one exercise
with records `(reps 10, weight 100)` and `(reps 5, weight 90)` the
output is the single record `(reps 10, weight 100)`. -/
theorem c1_dominance_filter_spec :
    (∀ (rows : List Row) (r : ProcRow),
        r ∈ highest_weight_per_rep rows ↔ SpecFrontier r rows) ∧
      highest_weight_per_rep
          [⟨0, "Bench", some 100, some 10, []⟩, ⟨1, "Bench", some 90, some 5, []⟩] =
        [⟨0, "Bench", 100, 10, []⟩] := by
  constructor
  · intro rows r
    rw [mem_hwpr]
    unfold SpecFrontier SpecKept
    simp only [← mem_maxWeightSets]
    constructor
    · rintro ⟨hm, h⟩
      refine ⟨hm, ?_⟩
      rintro ⟨s, hs, hex, hreps, hw⟩
      exact h s hs hex ⟨hreps, hw⟩
    · rintro ⟨hm, h⟩
      refine ⟨hm, ?_⟩
      intro s hs hex hc
      exact h ⟨s, hs, hex, hc.1, hc.2⟩
  · norm_num [highest_weight_per_rep, maxWeightSets, sortedKeys, keyGroup, bestIn,
      procRows, toProc, ratTrunc, rkey, keyLe, is_superseded,
      List.insertionSort, List.orderedInsert, List.dedup, List.filterMap,
      List.filter, List.pwFilter]

/-- C2 -- strict monotonicity of the Frontier: two surviving records of
the same exercise with `A.reps < B.reps` never satisfy
`B.weight >= A.weight`. -/
theorem c2_frontier_monotonic (rows : List Row) (A B : ProcRow)
    (hA : A ∈ highest_weight_per_rep rows) (hB : B ∈ highest_weight_per_rep rows)
    (hex : A.ex = B.ex) (hr : A.reps < B.reps) : ¬ A.weight ≤ B.weight := by
  intro hw
  obtain ⟨hAm, hAf⟩ := mem_hwpr.mp hA
  obtain ⟨hBm, -⟩ := mem_hwpr.mp hB
  exact hAf B hBm hex.symm ⟨hr, hw⟩

/-- Concrete two-record Frontier used to instantiate C2. -/
lemma hwpr_pair_eval :
    highest_weight_per_rep
        [⟨0, "Bench", some 100, some 10, []⟩, ⟨1, "Bench", some 90, some 15, []⟩] =
      [⟨0, "Bench", 100, 10, []⟩, ⟨1, "Bench", 90, 15, []⟩] := by
  norm_num [highest_weight_per_rep, maxWeightSets, sortedKeys, keyGroup, bestIn,
    procRows, toProc, ratTrunc, rkey, keyLe, is_superseded,
    List.insertionSort, List.orderedInsert, List.dedup, List.filterMap,
    List.filter, List.pwFilter]

/-- Witness for C2: on the two-record Frontier `(10, 100)`, `(15, 90)`
both records survive and the monotonicity conclusion holds. -/
theorem c2_frontier_monotonic_witness :
    (⟨0, "Bench", 100, 10, []⟩ : ProcRow) ∈
        highest_weight_per_rep
          [⟨0, "Bench", some 100, some 10, []⟩, ⟨1, "Bench", some 90, some 15, []⟩] ∧
      (⟨1, "Bench", 90, 15, []⟩ : ProcRow) ∈
        highest_weight_per_rep
          [⟨0, "Bench", some 100, some 10, []⟩, ⟨1, "Bench", some 90, some 15, []⟩] ∧
      ¬ (⟨0, "Bench", 100, 10, []⟩ : ProcRow).weight ≤
          (⟨1, "Bench", 90, 15, []⟩ : ProcRow).weight :=
  ⟨by rw [hwpr_pair_eval]; simp,
   by rw [hwpr_pair_eval]; simp,
   c2_frontier_monotonic _ _ _
     (by rw [hwpr_pair_eval]; simp)
     (by rw [hwpr_pair_eval]; simp)
     rfl (by norm_num)⟩

/-- C9 -- frame property: every output row of the Dominance Filter is
one of the input rows; the pandas index, the `Exercise` value and all
passthrough columns are returned unchanged, and `Weight`/`Reps` are
exactly the numeric coercions of that input row's values. -/
theorem c9_passthrough (rows : List Row) (r : ProcRow)
    (h : r ∈ highest_weight_per_rep rows) :
    ∃ row ∈ rows, row.idx = r.idx ∧ row.ex = r.ex ∧ row.extra = r.extra ∧
      row.weight = some r.weight ∧ ∃ q, row.reps = some q ∧ ratTrunc q = r.reps := by
  have hm : r ∈ maxWeightSets (procRows rows) := (mem_hwpr.mp h).1
  obtain ⟨pre, post, hg, -, -⟩ := mem_maxWeightSets.mp hm
  have hkg : r ∈ keyGroup (rkey r) (procRows rows) := by
    rw [hg]
    exact List.mem_append_right pre (List.mem_cons_self _ _)
  have hp : r ∈ procRows rows := (mem_keyGroup.mp hkg).1
  obtain ⟨row, hrow, htp⟩ := List.mem_filterMap.mp hp
  refine ⟨row, hrow, ?_⟩
  unfold toProc at htp
  cases hw : row.weight with
  | none => rw [hw] at htp; cases htp
  | some w =>
    cases hq : row.reps with
    | none => rw [hw, hq] at htp; cases htp
    | some q =>
      rw [hw, hq] at htp
      obtain rfl := Option.some.inj htp
      exact ⟨rfl, rfl, rfl, rfl, q, rfl, rfl⟩

/-- One-row input carrying a passthrough column, used to instantiate C9. -/
lemma hwpr_extra_eval :
    highest_weight_per_rep [⟨0, "Bench", some 100, some 1, [("Date", "d")]⟩] =
      [⟨0, "Bench", 100, 1, [("Date", "d")]⟩] := by
  norm_num [highest_weight_per_rep, maxWeightSets, sortedKeys, keyGroup, bestIn,
    procRows, toProc, ratTrunc, rkey, keyLe, is_superseded,
    List.insertionSort, List.orderedInsert, List.dedup, List.filterMap,
    List.filter, List.pwFilter]

/-- Witness for C9: a row with a `Date` passthrough column survives with
that column unchanged. -/
theorem c9_passthrough_witness :
    (⟨0, "Bench", 100, 1, [("Date", "d")]⟩ : ProcRow) ∈
        highest_weight_per_rep [⟨0, "Bench", some 100, some 1, [("Date", "d")]⟩] ∧
      ∃ row ∈ [(⟨0, "Bench", some 100, some 1, [("Date", "d")]⟩ : Row)],
        row.idx = 0 ∧ row.ex = "Bench" ∧ row.extra = [("Date", "d")] ∧
          row.weight = some 100 ∧ ∃ q, row.reps = some q ∧ ratTrunc q = 1 :=
  ⟨by rw [hwpr_extra_eval]; simp,
   c9_passthrough [⟨0, "Bench", some 100, some 1, [("Date", "d")]⟩]
     ⟨0, "Bench", 100, 1, [("Date", "d")]⟩ (by rw [hwpr_extra_eval]; simp)⟩

/-- C10 -- the Dominance Filter does not enforce `Reps > 0`: a record
with `Reps = 0` that is not superseded is retained in the Frontier, even
though its capacity estimate `calculate_1rm 50 0` is NaN (`none`). -/
theorem c10_reps_zero_retained :
    highest_weight_per_rep [⟨0, "Squat", some 50, some 0, []⟩] =
        [⟨0, "Squat", 50, 0, []⟩] ∧
      calculate_1rm 50 0 = none := by
  constructor
  · norm_num [highest_weight_per_rep, maxWeightSets, sortedKeys, keyGroup, bestIn,
      procRows, toProc, ratTrunc, rkey, keyLe, is_superseded,
      List.insertionSort, List.orderedInsert, List.dedup, List.filterMap,
      List.filter, List.pwFilter]
  · decide

/-! ## C8: idempotence of the Dominance Filter -/

lemma ratTrunc_intCast (z : ℤ) : ratTrunc (z : ℚ) = z := by
  unfold ratTrunc
  split_ifs <;> simp

lemma toProc_embedRow (r : ProcRow) : toProc (embedRow r) = some r := by
  unfold toProc embedRow
  dsimp only
  rw [ratTrunc_intCast]

lemma procRows_map_embedRow (l : List ProcRow) : procRows (l.map embedRow) = l := by
  induction l with
  | nil => rfl
  | cons a l ih =>
    simp only [procRows, List.map_cons, List.filterMap_cons, toProc_embedRow]
    exact congrArg (a :: ·) ih

lemma filterMap_congr_mem {α β : Type} {f g : α → Option β} :
    ∀ {l : List α}, (∀ a ∈ l, f a = g a) → l.filterMap f = l.filterMap g := by
  intro l
  induction l with
  | nil => intro h; rfl
  | cons a l ih =>
    intro h
    rw [List.filterMap_cons, List.filterMap_cons, h a (List.mem_cons_self _ _),
      ih (fun x hx => h x (List.mem_cons_of_mem _ hx))]

lemma keyGroup_ne_nil_of_mem {k : String × ℤ} {l : List ProcRow}
    (h : k ∈ l.map rkey) : keyGroup k l ≠ [] := by
  obtain ⟨r, hr, rfl⟩ := List.mem_map.mp h
  exact List.ne_nil_of_mem (mem_keyGroup.mpr ⟨hr, rfl⟩)

lemma map_rkey_filterMap_bestIn {l : List ProcRow} :
    ∀ {ks : List (String × ℤ)}, (∀ k ∈ ks, keyGroup k l ≠ []) →
      (ks.filterMap (fun k => bestIn (keyGroup k l))).map rkey = ks := by
  intro ks
  induction ks with
  | nil => intro h; rfl
  | cons k ks ih =>
    intro h
    obtain ⟨b, hb⟩ : ∃ b, bestIn (keyGroup k l) = some b := by
      cases hbb : bestIn (keyGroup k l) with
      | none => exact absurd (bestIn_eq_none.mp hbb) (h k (List.mem_cons_self _ _))
      | some b => exact ⟨b, rfl⟩
    rw [List.filterMap_cons, hb]
    dsimp only
    rw [List.map_cons, ih (fun x hx => h x (List.mem_cons_of_mem _ hx))]
    exact congrArg (· :: ks) (mem_keyGroup.mp (bestIn_mem hb)).2

lemma sortedKeys_nodup (l : List ProcRow) : (sortedKeys l).Nodup :=
  (List.perm_insertionSort keyLe ((l.map rkey).dedup)).nodup_iff.mpr (List.nodup_dedup _)

lemma sortedKeys_sorted (l : List ProcRow) : List.Sorted keyLe (sortedKeys l) :=
  List.sorted_insertionSort keyLe _

lemma map_rkey_maxWeightSets (l : List ProcRow) :
    (maxWeightSets l).map rkey = sortedKeys l :=
  map_rkey_filterMap_bestIn (fun _ hk => keyGroup_ne_nil_of_mem (mem_sortedKeys.mp hk))

lemma keyGroup_eq_singleton {F : List ProcRow} {r : ProcRow}
    (hn : (F.map rkey).Nodup) (hr : r ∈ F) : keyGroup (rkey r) F = [r] := by
  induction F with
  | nil => cases hr
  | cons a F ih =>
    rw [List.map_cons, List.nodup_cons] at hn
    rcases List.mem_cons.mp hr with rfl | hr2
    · unfold keyGroup
      rw [List.filter_cons_of_pos (by simp)]
      rw [List.filter_eq_nil_iff.mpr ?_]
      intro x hx
      simp only [Bool.not_eq_true, decide_eq_false_iff_not]
      exact fun e => hn.1 (e ▸ List.mem_map_of_mem rkey hx)
    · have hka : ¬ (rkey a = rkey r) := fun e => hn.1 (by rw [e]; exact List.mem_map_of_mem rkey hr2)
      unfold keyGroup
      rw [List.filter_cons_of_neg (by simpa using hka)]
      exact ih hn.2 hr2

lemma filterMap_best_self :
    ∀ {F : List ProcRow}, (F.map rkey).Nodup →
      (F.map rkey).filterMap (fun k => bestIn (keyGroup k F)) = F := by
  intro F
  induction F with
  | nil => intro h; rfl
  | cons a F ih =>
    intro hn
    have hn2 := hn
    rw [List.map_cons, List.nodup_cons] at hn2
    rw [List.map_cons, List.filterMap_cons,
      keyGroup_eq_singleton hn (List.mem_cons_self a F)]
    dsimp only [bestIn]
    have hcong : ∀ k ∈ F.map rkey,
        bestIn (keyGroup k (a :: F)) = bestIn (keyGroup k F) := by
      intro k hk
      have hne : ¬ (rkey a = k) := fun e => hn2.1 (e ▸ hk)
      unfold keyGroup
      rw [List.filter_cons_of_neg (by simpa using hne)]
    rw [filterMap_congr_mem hcong, ih hn2.2]

lemma maxWeightSets_self {F : List ProcRow}
    (hn : (F.map rkey).Nodup) (hs : List.Sorted keyLe (F.map rkey)) :
    maxWeightSets F = F := by
  unfold maxWeightSets sortedKeys
  rw [List.dedup_eq_self.mpr hn, hs.insertionSort_eq]
  exact filterMap_best_self hn

/-- C8 -- the Dominance Filter is idempotent: feeding its output (as a
DataFrame, via `embedRow`) back through `highest_weight_per_rep`
returns the output unchanged. -/
theorem c8_idempotent (rows : List Row) :
    highest_weight_per_rep ((highest_weight_per_rep rows).map embedRow) =
      highest_weight_per_rep rows := by
  have hkeys : (maxWeightSets (procRows rows)).map rkey = sortedKeys (procRows rows) :=
    map_rkey_maxWeightSets _
  have hnodm : ((maxWeightSets (procRows rows)).map rkey).Nodup := by
    rw [hkeys]; exact sortedKeys_nodup _
  have hsortm : List.Sorted keyLe ((maxWeightSets (procRows rows)).map rkey) := by
    rw [hkeys]; exact sortedKeys_sorted _
  have hsubl : List.Sublist (highest_weight_per_rep rows) (maxWeightSets (procRows rows)) :=
    List.filter_sublist _
  have hmapsub : List.Sublist ((highest_weight_per_rep rows).map rkey)
      ((maxWeightSets (procRows rows)).map rkey) := hsubl.map rkey
  have hnodF : ((highest_weight_per_rep rows).map rkey).Nodup := hnodm.sublist hmapsub
  have hsortF : List.Sorted keyLe ((highest_weight_per_rep rows).map rkey) :=
    hsortm.sublist hmapsub
  conv_lhs => rw [highest_weight_per_rep, procRows_map_embedRow,
    maxWeightSets_self hnodF hsortF]
  apply List.filter_eq_self.mpr
  intro r hr
  have hr2 := hr
  rw [mem_hwpr] at hr2
  rw [not_is_superseded_iff]
  intro s hs
  rw [List.mem_filter] at hs
  have hsm : s ∈ maxWeightSets (procRows rows) := (mem_hwpr.mp (hs.1)).1
  exact hr2.2 s hsm (by simpa using hs.2)

/-! ## The Target Synthesizer (`dougs_next_pareto`) -/

/-- `pd.Series.unique`: the distinct values in first-appearance order. -/
def firstUniqueAux (seen : List String) : List String → List String
  | [] => []
  | x :: xs => if x ∈ seen then firstUniqueAux seen xs else x :: firstUniqueAux (x :: seen) xs

def firstUnique (l : List String) : List String := firstUniqueAux [] l

/-- The `sort_values("Reps")` comparison used by `dougs_next_pareto`. -/
def repLe (a b : ProcRow) : Prop := a.reps ≤ b.reps

instance : DecidableRel repLe := fun a b => by
  unfold repLe
  exact inferInstance

instance : IsTotal ProcRow repLe := ⟨fun a b => le_total a.reps b.reps⟩

instance : IsTrans ProcRow repLe := ⟨fun _ _ _ => le_trans⟩

/-- An output row of the Target Synthesizer, after `add_1rm_column`. -/
structure TRow where
  ex : String
  weight : ℚ
  reps : ℤ
  one_rm : Option ℚ
  deriving DecidableEq, Repr

/-- The internal-gap loop of `dougs_next_pareto`
(src/kaiserlift/main.py, lines 263-269): for each adjacent pair with
`rs[i+1] > rs[i] + 1` emit `(min(ws[i], ws[i+1]+5), rs[i]+1)`. -/
def gapRows (ex : String) : List ℚ → List ℤ → List (String × ℚ × ℤ)
  | w1 :: w2 :: ws, r1 :: r2 :: rs =>
      (if r1 + 1 < r2 then [(ex, min w1 (w2 + 5), r1 + 1)] else []) ++
        gapRows ex (w2 :: ws) (r2 :: rs)
  | _, _ => []

/-- The per-exercise rows of `dougs_next_pareto`: first-rep extension,
internal gaps, high-rep extension (src/kaiserlift/main.py, lines
259-272).  The source indexes `ws[0]`/`ws[-1]` of a nonempty group;
group lists are nonempty by construction, so the catch-all branch is
unreachable in context. -/
def exRows (ex : String) (ws : List ℚ) (rs : List ℤ) : List (String × ℚ × ℤ) :=
  match ws, rs with
  | w0 :: _, _ :: _ =>
      ((ex, w0 + 5, (1:ℤ)) :: gapRows ex ws rs) ++
        [(ex, ws.getLastD 0, rs.getLastD 0 + 1)]
  | _, _ => []

/-- `add_1rm_column` (src/kaiserlift/main.py, lines 198-223) applied to
the synthesized rows: appends the `1RM` column computed row-wise by
`calculate_1rm`. -/
def add_1rm_column (ts : List (String × ℚ × ℤ)) : List TRow :=
  ts.map (fun t => ⟨t.1, t.2.1, t.2.2, calculate_1rm t.2.1 ((t.2.2 : ℤ) : ℚ)⟩)

/-- Embedding of `dougs_next_pareto` (src/kaiserlift/main.py, lines
252-274): per exercise in first-appearance order, sort that exercise's
rows by `Reps` and emit the extension and gap rows, then add the `1RM`
column.  (`sort_values` is modelled by a stable sort; the function is
applied to frontiers, whose `Reps` are distinct per exercise.) -/
def dougs_next_pareto (records : List ProcRow) : List TRow :=
  add_1rm_column <|
    (firstUnique (records.map (fun r => r.ex))).flatMap (fun ex =>
      let ed := List.insertionSort repLe (records.filter (fun r => decide (r.ex = ex)))
      exRows ex (ed.map (fun r => r.weight)) (ed.map (fun r => r.reps)))

/-- A single-exercise Frontier as a row list: `(Weight, Reps)` pairs in
the given order. -/
def mkFrontier (ex : String) (ws : List ℚ) (rs : List ℤ) : List ProcRow :=
  (ws.zip rs).map (fun p => ⟨0, ex, p.1, p.2, []⟩)

/-- The claim's internal-gap rule, rendered over the adjacent pairs of
the `(performance, effort)` sequence: one target per adjacent pair whose
efforts differ by more than one, none otherwise. -/
def claimGapTargets (ws : List ℚ) (rs : List ℤ) : List (ℚ × ℤ) :=
  ((ws.zip rs).zip (ws.zip rs).tail).filterMap (fun q =>
    if q.1.2 + 1 < q.2.2 then some (min q.1.1 (q.2.1 + 5), q.1.2 + 1) else none)

lemma gapRows_eq_claimGapTargets (ex : String) :
    ∀ (ws : List ℚ) (rs : List ℤ),
      gapRows ex ws rs = (claimGapTargets ws rs).map (fun p => (ex, p.1, p.2)) := by
  intro ws
  induction ws with
  | nil => intro rs; cases rs <;> rfl
  | cons w1 ws ih =>
    intro rs
    cases ws with
    | nil =>
      cases rs with
      | nil => rfl
      | cons r1 rs => cases rs <;> rfl
    | cons w2 ws =>
      cases rs with
      | nil => rfl
      | cons r1 rs =>
        cases rs with
        | nil => rfl
        | cons r2 rs =>
          have h2 : claimGapTargets (w1 :: w2 :: ws) (r1 :: r2 :: rs) =
              (if r1 + 1 < r2 then [(min w1 (w2 + 5), r1 + 1)] else []) ++
                claimGapTargets (w2 :: ws) (r2 :: rs) := by
            unfold claimGapTargets
            simp only [List.zip_cons_cons, List.tail_cons, List.filterMap_cons]
            split_ifs <;> rfl
          show (if r1 + 1 < r2 then [(ex, min w1 (w2 + 5), r1 + 1)] else []) ++
              gapRows ex (w2 :: ws) (r2 :: rs) = _
          rw [ih (r2 :: rs), h2]
          split_ifs <;> simp

lemma mem_mkFrontier {ex : String} {ws : List ℚ} {rs : List ℤ} {r : ProcRow}
    (h : r ∈ mkFrontier ex ws rs) : r.ex = ex := by
  unfold mkFrontier at h
  obtain ⟨p, hp, rfl⟩ := List.mem_map.mp h
  rfl

lemma firstUniqueAux_replicate (x : String) :
    ∀ (n : ℕ) (seen : List String), x ∈ seen →
      firstUniqueAux seen (List.replicate n x) = [] := by
  intro n
  induction n with
  | zero => intro seen h; rfl
  | succ n ih =>
    intro seen h
    simp only [List.replicate_succ, firstUniqueAux, if_pos h]
    exact ih seen h

lemma firstUnique_replicate (x : String) (n : ℕ) :
    firstUnique (List.replicate (n + 1) x) = [x] := by
  unfold firstUnique
  simp only [List.replicate_succ, firstUniqueAux, if_neg (List.not_mem_nil x)]
  rw [firstUniqueAux_replicate x n [x] (List.mem_singleton.mpr rfl)]

lemma map_proj_mkFrontier (ex : String) :
    ∀ (ws : List ℚ) (rs : List ℤ), ws.length = rs.length →
      (mkFrontier ex ws rs).map (fun r => r.weight) = ws ∧
      (mkFrontier ex ws rs).map (fun r => r.reps) = rs ∧
      (mkFrontier ex ws rs).map (fun r => r.ex) = List.replicate ws.length ex := by
  intro ws
  induction ws with
  | nil =>
    intro rs h
    cases rs with
    | nil => exact ⟨rfl, rfl, rfl⟩
    | cons r rs => simp at h
  | cons w ws ih =>
    intro rs h
    cases rs with
    | nil => simp at h
    | cons r rs =>
      have h2 : ws.length = rs.length := by simpa using h
      obtain ⟨h1, h3, h4⟩ := ih rs h2
      unfold mkFrontier at h1 h3 h4 ⊢
      simp only [List.zip_cons_cons, List.map_cons, List.length_cons, List.replicate_succ]
      exact ⟨by rw [h1], by rw [h3], by rw [h4]⟩

lemma sorted_mkFrontier (ex : String) {ws : List ℚ} {rs : List ℤ}
    (hlen : ws.length = rs.length) (hs : List.Chain' (fun a b : ℤ => a ≤ b) rs) :
    List.Sorted repLe (mkFrontier ex ws rs) := by
  have hp : List.Pairwise (fun a b : ℤ => a ≤ b) rs := List.chain'_iff_pairwise.mp hs
  have h2 := (map_proj_mkFrontier ex ws rs hlen).2.1
  rw [← h2, List.pairwise_map] at hp
  exact hp.imp (fun h => h)

lemma filter_mkFrontier (ex : String) (ws : List ℚ) (rs : List ℤ) :
    (mkFrontier ex ws rs).filter (fun r => decide (r.ex = ex)) = mkFrontier ex ws rs :=
  List.filter_eq_self.mpr (fun r hr => by simp [mem_mkFrontier hr])

/-- On a single-exercise Frontier already sorted by reps,
`dougs_next_pareto` produces exactly the per-exercise rows with the
`1RM` column added. -/
lemma dougs_on_frontier (ex : String) (ws : List ℚ) (rs : List ℤ)
    (hne : ws ≠ []) (hlen : ws.length = rs.length)
    (hs : List.Chain' (fun a b : ℤ => a ≤ b) rs) :
    dougs_next_pareto (mkFrontier ex ws rs) = add_1rm_column (exRows ex ws rs) := by
  unfold dougs_next_pareto
  rw [(map_proj_mkFrontier ex ws rs hlen).2.2]
  obtain ⟨w0, ws2, rfl⟩ : ∃ w0 ws2, ws = w0 :: ws2 := by
    cases ws with
    | nil => exact absurd rfl hne
    | cons w0 ws2 => exact ⟨w0, ws2, rfl⟩
  rw [List.length_cons, firstUnique_replicate]
  simp only [List.flatMap_cons, List.flatMap_nil, List.append_nil]
  rw [filter_mkFrontier, (sorted_mkFrontier ex hlen hs).insertionSort_eq,
    (map_proj_mkFrontier ex _ rs hlen).1, (map_proj_mkFrontier ex _ rs hlen).2.1]

/-- C4 -- internal gap targets: on a Frontier sorted ascending by reps,
`dougs_next_pareto` emits, between the two extension targets, exactly
one target per adjacent pair whose reps differ by more than one, with
reps `rs[i] + 1` and weight `min(ws[i], ws[i+1] + 5)`, and no target for
adjacent pairs whose reps differ by exactly one; in particular the
Frontier `[(2,100), (5,80), (6,75), (10,50)]` yields gap targets
`(3, 85)` and `(7, 55)` only. -/
theorem c4_internal_gap_targets :
    (∀ (ex : String) (ws : List ℚ) (rs : List ℤ),
        ws ≠ [] → ws.length = rs.length →
        List.Chain' (fun a b : ℤ => a ≤ b) rs →
        dougs_next_pareto (mkFrontier ex ws rs) =
          add_1rm_column (((ex, ws.headD 0 + 5, (1:ℤ)) ::
              (claimGapTargets ws rs).map (fun p => (ex, p.1, p.2))) ++
            [(ex, ws.getLastD 0, rs.getLastD 0 + 1)])) ∧
      dougs_next_pareto (mkFrontier "Bench" [100, 80, 75, 50] [2, 5, 6, 10]) =
        [⟨"Bench", 105, 1, some 105⟩, ⟨"Bench", 85, 3, some (187/2)⟩,
         ⟨"Bench", 55, 7, some (407/6)⟩, ⟨"Bench", 50, 11, some (205/3)⟩] := by
  constructor
  · intro ex ws rs hne hlen hs
    rw [dougs_on_frontier ex ws rs hne hlen hs]
    obtain ⟨w0, ws2, rfl⟩ : ∃ w0 ws2, ws = w0 :: ws2 := by
      cases ws with
      | nil => exact absurd rfl hne
      | cons w0 ws2 => exact ⟨w0, ws2, rfl⟩
    obtain ⟨r0, rs2, rfl⟩ : ∃ r0 rs2, rs = r0 :: rs2 := by
      cases rs with
      | nil => simp at hlen
      | cons r0 rs2 => exact ⟨r0, rs2, rfl⟩
    unfold exRows
    rw [gapRows_eq_claimGapTargets]
    rfl
  · norm_num [dougs_next_pareto, mkFrontier, firstUnique, firstUniqueAux,
      List.insertionSort, List.orderedInsert, repLe, exRows, gapRows,
      add_1rm_column, calculate_1rm, List.getLastD]

/-- C5 -- extension targets: on any nonempty Frontier sorted ascending
by reps, `dougs_next_pareto` emits a low-effort extension target
`(reps 1, weight ws[0] + 5)` first and a high-effort extension target
`(reps rs[-1] + 1, weight ws[-1])` last, so at least two targets are
produced; a single-record Frontier `(reps 1, weight 100)` yields exactly
`[(1, 105), (2, 100)]`. -/
theorem c5_extension_targets :
    (∀ (ex : String) (ws : List ℚ) (rs : List ℤ),
        ws ≠ [] → ws.length = rs.length →
        List.Chain' (fun a b : ℤ => a ≤ b) rs →
        ∃ mid : List TRow,
          dougs_next_pareto (mkFrontier ex ws rs) =
            (⟨ex, ws.headD 0 + 5, 1, calculate_1rm (ws.headD 0 + 5) ((1 : ℤ) : ℚ)⟩ ::
                mid) ++
              [⟨ex, ws.getLastD 0, rs.getLastD 0 + 1,
                calculate_1rm (ws.getLastD 0) ((rs.getLastD 0 + 1 : ℤ) : ℚ)⟩] ∧
            2 ≤ (dougs_next_pareto (mkFrontier ex ws rs)).length) ∧
      dougs_next_pareto (mkFrontier "Bench" [100] [1]) =
        [⟨"Bench", 105, 1, some 105⟩, ⟨"Bench", 100, 2, some (320/3)⟩] := by
  constructor
  · intro ex ws rs hne hlen hs
    rw [dougs_on_frontier ex ws rs hne hlen hs]
    obtain ⟨w0, ws2, rfl⟩ : ∃ w0 ws2, ws = w0 :: ws2 := by
      cases ws with
      | nil => exact absurd rfl hne
      | cons w0 ws2 => exact ⟨w0, ws2, rfl⟩
    obtain ⟨r0, rs2, rfl⟩ : ∃ r0 rs2, rs = r0 :: rs2 := by
      cases rs with
      | nil => simp at hlen
      | cons r0 rs2 => exact ⟨r0, rs2, rfl⟩
    refine ⟨add_1rm_column (gapRows ex (w0 :: ws2) (r0 :: rs2)), ?_, ?_⟩
    · unfold exRows add_1rm_column
      simp [List.map_append]
    · unfold exRows add_1rm_column
      simp [List.map_append]
  · norm_num [dougs_next_pareto, mkFrontier, firstUnique, firstUniqueAux,
      List.insertionSort, List.orderedInsert, repLe, exRows, gapRows,
      add_1rm_column, calculate_1rm, List.getLastD]

/-- Witness for C4: the universal part applied to the Frontier
`[(2,100), (5,80), (6,75), (10,50)]`. -/
theorem c4_internal_gap_targets_witness :
    dougs_next_pareto (mkFrontier "Bench" [100, 80, 75, 50] [2, 5, 6, 10]) =
      add_1rm_column ((("Bench", (100:ℚ) + 5, (1:ℤ)) ::
          (claimGapTargets [100, 80, 75, 50] [2, 5, 6, 10]).map
            (fun p => ("Bench", p.1, p.2))) ++
        [("Bench", (50:ℚ), (11:ℤ))]) := by
  have h := (c4_internal_gap_targets.1) "Bench" [100, 80, 75, 50] [2, 5, 6, 10]
    (by simp) (by simp) (by norm_num [List.chain'_cons])
  simpa using h

/-- Witness for C5: the universal part applied to the single-record
Frontier `(reps 1, weight 100)`. -/
theorem c5_extension_targets_witness :
    (∃ mid : List TRow,
      dougs_next_pareto (mkFrontier "Bench" [100] [1]) =
        (⟨"Bench", (100:ℚ) + 5, 1, calculate_1rm ((100:ℚ) + 5) ((1 : ℤ) : ℚ)⟩ :: mid) ++
          [⟨"Bench", 100, 2, calculate_1rm 100 ((2 : ℤ) : ℚ)⟩]) ∧
      2 ≤ (dougs_next_pareto (mkFrontier "Bench" [100] [1])).length := by
  have h := (c5_extension_targets.1) "Bench" [100] [1]
    (by simp) (by simp) (by simp)
  simpa using h

end Kaiserlift